import Mathlib

/-
Verification development for the `mimas` scripting engine
(namespace `Script` of the source: command abstraction, parser,
sequence storage, player, engine).

Shallow embedding notes:
- JavaScript objects used as string-keyed maps (`sequences`, `labelTable`,
  the value container) are modelled as association lists with
  replace-or-append update (`setAssoc`), which has the same lookup
  behaviour as property assignment on a plain object.
- JavaScript reference semantics for `Player` objects matters: during a
  tick the running player may be pushed on the call stack by `gosub`
  while it keeps mutating itself.  We therefore give every player a
  numeric identity and store all players in a heap (`players`); the
  active slot and the call stack hold identities, exactly mirroring the
  object references of the source.
- Concrete command classes other than the three internal sentinels are
  external collaborators.  Their `start`/`update` bodies can only call
  back into the engine surface (`setValue`, `goto`, `gosub`) or stop
  themselves (`stopCommand` of `ContinuousCommand`), so command
  behaviour is represented by a small first-order `Effect` language that
  the engine interprets.  Values in the untyped value container are
  modelled as strings.
- Method invocations on sequence commands (`onRegistered`, `start`,
  `update`, `finish`) are recorded in an event trace so that the
  "fires exactly once" style invariants of the spec become statements
  about the trace.  The internal sentinels created by the player itself
  (the initial `CommandReady`, the `CommandHalt` made on sequence
  exhaustion) carry no sequence position and leave no events; their
  methods are no-ops in the source.
-/

namespace Script

/-- Association-list lookup, first match wins (object property read). -/
def lookupAssoc {κ α : Type} [DecidableEq κ] : List (κ × α) → κ → Option α
  | [], _ => none
  | (k', v) :: rest, k => if k' = k then some v else lookupAssoc rest k

/-- Association-list update, replace-or-append (object property write). -/
def setAssoc {κ α : Type} [DecidableEq κ] (k : κ) (v : α) : List (κ × α) → List (κ × α)
  | [] => [(k, v)]
  | (k', v') :: rest => if k' = k then (k, v) :: rest else (k', v') :: setAssoc k v rest

/-- Engine calls a command may make from inside `start`/`update`/`finish`,
plus `stopSelf` for `ContinuousCommand.stopCommand` on the running command. -/
inductive Effect where
  | nop
  | setValueE (k v : String)
  | gotoE (idx : Nat) (script : String)
  | gosubE (idx : Nat) (script : String)
  | stopSelf
deriving DecidableEq

/-- The command variants of the source: `CommandReady`, `CommandHalt`,
`CommandLabel`, and the two user-facing base classes `OneShotCommand`
(`isFinished` always true, all effect in `start`) and `ContinuousCommand`
(finished only once its internal flag is set).  `brk` is the overridable
`isBreak` getter, default `false`. -/
inductive Cmd where
  | ready
  | halt
  | labelC (name : String)
  | oneShot (brk : Bool) (s : Effect)
  | continuous (brk : Bool) (s u f : Effect)
deriving DecidableEq

/-- The player's `currentCommand` slot: the command, the
`commandFinished` flag of `ContinuousCommand` (unused by the other
variants), and the sequence position the command was fetched from
(`none` for the internally created sentinels). -/
structure CurCmd where
  cmd : Cmd
  flag : Bool
  origin : Option (String × Nat)
deriving DecidableEq

/-- `Label(scriptName, labelName, index)` of the source. -/
structure LabelR where
  scriptName : String
  labelName : String
  index : Nat
deriving DecidableEq

/-- Player state: the held sequence (identified by its unique script
name, since the engine creates exactly one `Sequence` per name and never
replaces it), the program counter (−1 before the first tick), and the
current command slot. -/
structure PlayerSt where
  scriptName : String
  pc : Int
  cur : CurCmd
deriving DecidableEq

/-- Instrumentation events: one per method invocation on a sequence
command, tagged with script name and sequence index. -/
inductive Ev where
  | onRegE (script : String) (idx : Nat)
  | startE (script : String) (idx : Nat)
  | updateE (script : String) (idx : Nat)
  | finishE (script : String) (idx : Nat)
deriving DecidableEq

/-- Engine state: script-name-keyed sequences, the player heap with the
active player id (`none` before the first `register`, where the source
leaves `this.player` undefined), the call stack of suspended player ids
(head = top), the label table, the value container, and the event
trace (chronological). -/
structure EngineSt where
  sequences : List (String × List Cmd)
  players : List (Nat × PlayerSt)
  nextId : Nat
  activeId : Option Nat
  callStack : List Nat
  labelTable : List (String × LabelR)
  values : List (String × String)
  trace : List Ev
deriving DecidableEq

/-- `new Engine()`. -/
def initEngine : EngineSt :=
  { sequences := [], players := [], nextId := 0, activeId := none,
    callStack := [], labelTable := [], values := [], trace := [] }

/-- `currentCommand` slot holding a fresh `CommandReady`. -/
def readyCur : CurCmd := ⟨Cmd.ready, false, none⟩

/-- `currentCommand` slot holding a fresh `CommandHalt` made by the
player on sequence exhaustion. -/
def haltCur : CurCmd := ⟨Cmd.halt, false, none⟩

/-- `isFinished` of the current command.  `OneShotCommand` (and its
subclasses `CommandReady`, `CommandLabel`) always reports true;
`ContinuousCommand` (and `CommandHalt`) reports its internal flag. -/
def curIsFinished (c : CurCmd) : Bool :=
  match c.cmd with
  | Cmd.ready => true
  | Cmd.labelC _ => true
  | Cmd.oneShot _ _ => true
  | Cmd.halt => c.flag
  | Cmd.continuous _ _ _ _ => c.flag

/-- `isBreak` of a command. -/
def cmdIsBreak : Cmd → Bool
  | Cmd.oneShot b _ => b
  | Cmd.continuous b _ _ _ => b
  | _ => false

/-- The `start` body of a command (sentinels do nothing). -/
def cmdStartEff : Cmd → Effect
  | Cmd.oneShot _ s => s
  | Cmd.continuous _ s _ _ => s
  | _ => Effect.nop

/-- The `update` body of a command (no-op except for user continuous
commands). -/
def cmdUpdateEff : Cmd → Effect
  | Cmd.continuous _ _ u _ => u
  | _ => Effect.nop

/-- The `finish` body of a command (no-op except for user continuous
commands). -/
def cmdFinishEff : Cmd → Effect
  | Cmd.continuous _ _ _ f => f
  | _ => Effect.nop

/-- `instanceof CommandHalt`. -/
def isHaltCmd : Cmd → Bool
  | Cmd.halt => true
  | _ => false

/-- Append an event to the trace. -/
def emit (e : Ev) (st : EngineSt) : EngineSt := { st with trace := st.trace ++ [e] }

/-- Emit an event for the current command when it is a sequence command
(the internal sentinels have no position and their methods are no-ops). -/
def emitFor (mk : String → Nat → Ev) (o : Option (String × Nat)) (st : EngineSt) : EngineSt :=
  match o with
  | some (s, i) => emit (mk s i) st
  | none => st

/-- Write a player back into the heap. -/
def setPlayer (me : Nat) (p : PlayerSt) (st : EngineSt) : EngineSt :=
  { st with players := setAssoc me p st.players }

/-- `ValueContainer.set`. -/
def VCset (k v : String) (c : List (String × String)) : List (String × String) := setAssoc k v c

/-- `ValueContainer.get` (`undefined` on a missing key becomes `none`). -/
def VCget (c : List (String × String)) (k : String) : Option String := lookupAssoc c k

/-- `Engine.setValue`. -/
def setValue (k v : String) (st : EngineSt) : EngineSt := { st with values := VCset k v st.values }

/-- `Engine.getValue`. -/
def getValue (st : EngineSt) (k : String) : Option String := VCget st.values k

/-- `Engine.goto(index, scriptName)`: resets the active player in place
to `(sequence, index)` — program counter `index - 1`, a fresh
`CommandReady` as current command.  (With no player yet the source would
fault on `this.player`; the claims only exercise registered engines.) -/
def engineGoto (idx : Nat) (name : String) (st : EngineSt) : EngineSt :=
  match st.activeId with
  | none => st
  | some a =>
    match lookupAssoc st.players a with
    | none => st
    | some _ => setPlayer a ⟨name, (idx : Int) - 1, readyCur⟩ st

/-- `Engine.gosub(index, scriptName)`: pushes the active player id on
the call stack and installs a brand-new player at `(sequence, index)`. -/
def engineGosub (idx : Nat) (name : String) (st : EngineSt) : EngineSt :=
  match st.activeId with
  | none => st
  | some a =>
    { st with callStack := a :: st.callStack,
              players := setAssoc st.nextId ⟨name, (idx : Int) - 1, readyCur⟩ st.players,
              activeId := some st.nextId,
              nextId := st.nextId + 1 }

/-- Interpret one `Effect` invoked by player `me`'s current command. -/
def applyEff (me : Nat) (e : Effect) (st : EngineSt) : EngineSt :=
  match e with
  | Effect.nop => st
  | Effect.setValueE k v => setValue k v st
  | Effect.gotoE i n => engineGoto i n st
  | Effect.gosubE i n => engineGosub i n st
  | Effect.stopSelf =>
    match lookupAssoc st.players me with
    | none => st
    | some p => setPlayer me { p with cur := { p.cur with flag := true } } st

/-- The tail of `Player.run` after the advancing loop: if the current
command is still unfinished, call `update(engine)`, and if that made it
finished, call `finish(engine)` within the same tick. -/
def runUpdatePhase (me : Nat) (st : EngineSt) : EngineSt :=
  match lookupAssoc st.players me with
  | none => st
  | some p =>
    if curIsFinished p.cur then st
    else
      let st1 := emitFor Ev.updateE p.cur.origin st
      let st2 := applyEff me (cmdUpdateEff p.cur.cmd) st1
      match lookupAssoc st2.players me with
      | none => st2
      | some p2 =>
        if curIsFinished p2.cur then
          applyEff me (cmdFinishEff p2.cur.cmd) (emitFor Ev.finishE p2.cur.origin st2)
        else st2

/-- The advancing `while` loop of `Player.run`: while the current
command reports finished, advance the program counter; past the end of
the sequence install a fresh `CommandHalt` and return at once;
otherwise fetch the command at the new index, call `init()` (which
clears the continuous flag) and `start(engine)`, and stop advancing if
`isBreak` holds.  The loop re-reads the player after every effect, as
the source reads `this.currentCommand` fresh each time.  `fuel` bounds
the number of iterations; the caller supplies more than the loop can
use on the executions the claims exercise (without `goto` effects each
iteration strictly advances `pc` toward the sequence end). -/
def runLoop (me : Nat) : Nat → EngineSt → EngineSt
  | 0, st => st
  | fuel+1, st =>
    match lookupAssoc st.players me with
    | none => st
    | some p =>
      if curIsFinished p.cur then
        let pc' := p.pc + 1
        match lookupAssoc st.sequences p.scriptName with
        | none => st
        | some prog =>
          if (prog.length : Int) ≤ pc' then
            setPlayer me { p with pc := pc', cur := haltCur } st
          else
            match prog.get? pc'.toNat with
            | none => st
            | some c =>
              let cur0 : CurCmd := ⟨c, false, some (p.scriptName, pc'.toNat)⟩
              let st1 := setPlayer me { p with pc := pc', cur := cur0 } st
              let st2 := emit (Ev.startE p.scriptName pc'.toNat) st1
              let st3 := applyEff me (cmdStartEff c) st2
              match lookupAssoc st3.players me with
              | none => st3
              | some p3 =>
                if cmdIsBreak p3.cur.cmd then runUpdatePhase me st3
                else runLoop me fuel st3
      else runUpdatePhase me st

/-- Total number of registered commands, used to bound the advancing
loop's fuel. -/
def totalSeqLen (st : EngineSt) : Nat := st.sequences.foldl (fun n q => n + q.2.length) 0

/-- `Player.run(engine)` for the player with identity `me`. -/
def playerRun (me : Nat) (st : EngineSt) : EngineSt := runLoop me (totalSeqLen st + 2) st

/-- `Player.isHalted`: the current command is a `CommandHalt`. -/
def playerIsHalted (st : EngineSt) (a : Nat) : Bool :=
  match lookupAssoc st.players a with
  | some p => isHaltCmd p.cur.cmd
  | none => false

/-- `Engine.run()`: tick the active player once; afterwards, if the
(possibly new) active player is halted and the call stack is non-empty,
pop the stack into the active slot. -/
def engineRun (st : EngineSt) : EngineSt :=
  match st.activeId with
  | none => st
  | some a =>
    let st' := playerRun a st
    match st'.activeId with
    | none => st'
    | some b =>
      if playerIsHalted st' b then
        match st'.callStack with
        | [] => st'
        | top :: rest => { st' with activeId := some top, callStack := rest }
      else st'

/-- `Engine.isHalted`. -/
def engineIsHalted (st : EngineSt) : Bool :=
  match st.activeId with
  | none => false
  | some a => playerIsHalted st a

/-- Iterated `Engine.run()`. -/
def runN : Nat → EngineSt → EngineSt
  | 0, st => st
  | n+1, st => runN n (engineRun st)

/-- `Label.fullname`. -/
def fullname (scriptName labelName : String) : String := scriptName ++ "/" ++ labelName

/-- JavaScript `String.prototype.indexOf` for a single character,
starting the scan at list position `i` (result −1 when absent). -/
def jsStrIndexOfAux (l : List Char) (c : Char) (i : Nat) : Int :=
  match l with
  | [] => -1
  | d :: t => if d = c then (i : Int) else jsStrIndexOfAux t c (i + 1)

/-- `name.indexOf("/")` of the source's `Label.isFullname`. -/
def jsStrIndexOf (s : String) (c : Char) : Int := jsStrIndexOfAux s.toList c 0

/-- `Label.isFullname`: `name.indexOf("/") > 0`. -/
def isFullname (name : String) : Bool := 0 < jsStrIndexOf name '/'

/-- Script name of the active player (`this.player.scriptName`;
`none` with no player, where the source would fault). -/
def activeScriptName (st : EngineSt) : Option String :=
  match st.activeId with
  | none => none
  | some a =>
    match lookupAssoc st.players a with
    | none => none
    | some p => some p.scriptName

/-- `Engine.getLabel(labelName)`: a name already containing the
qualifier separator past position zero is used as-is, otherwise it is
qualified against the active player's script name; a missing entry is
an absent result, not an error. -/
def getLabel (st : EngineSt) (name : String) : Option LabelR :=
  if isFullname name then lookupAssoc st.labelTable name
  else
    match activeScriptName st with
    | none => none
    | some sn => lookupAssoc st.labelTable (fullname sn name)

/-- The label-indexing pass of `Engine.register`: walk the full
sequence and (re-)index every `CommandLabel` under its full name. -/
def labelPassAux (name : String) : Nat → List Cmd → EngineSt → EngineSt
  | _, [], st => st
  | ix, c :: rest, st =>
    let st' :=
      match c with
      | Cmd.labelC l =>
        { st with labelTable := setAssoc (fullname name l) ⟨name, l, ix⟩ st.labelTable }
      | _ => st
    labelPassAux name (ix + 1) rest st'

/-- The `onRegistered` pass of `Engine.register`: invoke
`onRegistered(engine)` on every command of the full sequence (recorded
as events; no command of the repository overrides the no-op default). -/
def onRegPassAux (name : String) : Nat → List Cmd → EngineSt → EngineSt
  | _, [], st => st
  | ix, _ :: rest, st => onRegPassAux name (ix + 1) rest (emit (Ev.onRegE name ix) st)

/-- `Engine.register(commands, scriptName)`: create the named sequence
on first use, lazily create the initial active player on the very first
call, append the commands, then run the label pass and the
`onRegistered` pass over the full (old + new) sequence. -/
def register (cmds : List Cmd) (name : String) (st0 : EngineSt) : EngineSt :=
  let st1 :=
    match lookupAssoc st0.sequences name with
    | some _ => st0
    | none => { st0 with sequences := setAssoc name [] st0.sequences }
  let st2 :=
    match st1.activeId with
    | some _ => st1
    | none =>
      { st1 with players := setAssoc st1.nextId ⟨name, -1, readyCur⟩ st1.players,
                 activeId := some st1.nextId, nextId := st1.nextId + 1 }
  let prog := ((lookupAssoc st2.sequences name).getD []) ++ cmds
  let st3 := { st2 with sequences := setAssoc name prog st2.sequences }
  let st4 := labelPassAux name 0 prog st3
  onRegPassAux name 0 prog st4

/-! ### Parser

`Parser.parse` is a character-level pushdown state machine.  We embed it
over `List Char` with a cursor, mirroring each `case` of the source's
`switch`.  JavaScript reads past the end of a string yield `undefined`,
modelled by `List.get?` returning `none`; `"chars".indexOf(undefined)`
is −1, so the whitespace and number scans stop at the end of input,
while the single-line-comment loop `while (script[p++] !== "\n");`
keeps going (`undefined` is never the newline character).  The outer
`while (p < script.length)` is one fueled step per `switch` dispatch;
the comment loop, which runs inside a single dispatch of the source but
need not terminate, is decomposed into one fueled step per consumed
character, placed before the outer length guard exactly because the
source's inner loop is not stopped by that guard.  `none` is the result
of fuel exhaustion; for every terminating execution of the source some
fuel makes the model return the same `ok`/`error` outcome. -/

/-- Argument values collected by the parser: a double-quoted string
taken verbatim, or the raw token scanned for a numeric literal (the
source applies `parseFloat`; the claims never consult the numeric
value, so the token is kept as scanned). -/
inductive Arg where
  | str (s : String)
  | numTok (tok : String)
deriving DecidableEq

/-- The states of the source's tokenizer `switch`, plus `undef` for the
state produced by popping an empty state stack (the source would leave
`state` undefined and spin in the dispatch loop). -/
inductive PState where
  | default
  | whitespace
  | comment
  | funct
  | argument
  | argString
  | argNumber
  | undef
deriving DecidableEq

/-- The mutable locals of `Parser.parse`. -/
structure ParserSt where
  p : Nat
  line : Nat
  state : PState
  stack : List PState
  cmds : List Cmd
  curName : String
  curArgs : List Arg
deriving DecidableEq

/-- Membership in the separator set `" \t\r\n;,"`. -/
def isSepChar (c : Char) : Bool :=
  c = ' ' || c = '\t' || c = '\r' || c = '\n' || c = ';' || c = ','

/-- Membership in the numeric-literal set `"-+.0123456789"`. -/
def isNumChar (c : Char) : Bool :=
  c = '-' || c = '+' || c = '.' || c.isDigit

/-- `script[p].match(/[a-z]/i)`. -/
def isAlphaChar (c : Char) : Bool :=
  ('a' ≤ c && c ≤ 'z') || ('A' ≤ c && c ≤ 'Z')

/-- `script.substr(p).indexOf("//") === 0`. -/
def startsComment (s : List Char) (p : Nat) : Bool :=
  s.get? p = some '/' && s.get? (p + 1) = some '/'

/-- The `skip_whitespace` closure, structurally recursive on the
number of characters left: advance past separators, counting newlines
into the line counter; stops at the end of input (out-of-range reads
are `undefined`, which is not in the separator string). -/
def skipWsAux (s : List Char) : Nat → Nat → Nat → Nat × Nat
  | 0, p, line => (p, line)
  | n + 1, p, line =>
    match s.get? p with
    | none => (p, line)
    | some c =>
      if isSepChar c then skipWsAux s n (p + 1) (if c = '\n' then line + 1 else line)
      else (p, line)

/-- `skip_whitespace(s, p)` with the running line counter.  The bound
`s.length + 1 - p` exceeds the number of loop iterations the source can
perform, so the fuel never runs out. -/
def skipWs (s : List Char) (p line : Nat) : Nat × Nat :=
  skipWsAux s (s.length + 1 - p) p line

/-- The greedy numeric scan of the `argument_number` case: first index
at or after the start whose character is outside the numeric set,
structurally recursive on the number of characters left. -/
def scanNumAux (s : List Char) : Nat → Nat → Nat
  | 0, p => p
  | n + 1, p =>
    match s.get? p with
    | none => p
    | some c => if isNumChar c then scanNumAux s n (p + 1) else p

/-- The numeric scan with a bound the loop cannot exhaust. -/
def scanNum (s : List Char) (p : Nat) : Nat := scanNumAux s (s.length + 1 - p) p

/-- First position at or after the cursor holding the character,
structurally recursive on the number of characters left. -/
def jsIndexOfFromAux (s : List Char) (c : Char) : Nat → Nat → Option Nat
  | 0, _ => none
  | n + 1, p =>
    match s.get? p with
    | none => none
    | some d => if d = c then some p else jsIndexOfFromAux s c n (p + 1)

/-- `script.indexOf(c, p)` restricted to a single character (`none` is
the source's −1), with a bound the scan cannot exhaust. -/
def jsIndexOfFrom (s : List Char) (c : Char) (p : Nat) : Option Nat :=
  jsIndexOfFromAux s c (s.length + 1 - p) p

/-- `script.substr(start, len)`: empty for non-positive length. -/
def jsSubstr (s : List Char) (start : Nat) (len : Int) : String :=
  if len ≤ 0 then "" else String.mk ((s.drop start).take len.toNat)

/-- JavaScript whitespace for `String.prototype.trim` (the characters
that can occur in this grammar). -/
def isJsSpace (c : Char) : Bool :=
  c = ' ' || c = '\t' || c = '\n' || c = '\r' || c = '\x0b' || c = '\x0c'

/-- `token.trim()`: strip whitespace from both ends. -/
def jsTrim (str : String) : String :=
  String.mk (((str.toList.dropWhile isJsSpace).reverse.dropWhile isJsSpace).reverse)

/-- `index + 1` as the new cursor, where `index` is an `indexOf` result
(−1 on a failed search gives cursor 0, as in the source). -/
def nextAfter : Option Nat → Nat
  | some i => i + 1
  | none => 0

/-- The `indexOf` result as the JavaScript number: `some i` is `i`,
`none` is −1. -/
def idxInt : Option Nat → Int
  | some i => (i : Int)
  | none => -1

/-- Pop of the explicit state stack (`undefined` state on an empty
stack). -/
def popState : List PState → PState × List PState
  | [] => (PState.undef, [])
  | st :: rest => (st, rest)

/-- The error messages of the source, `filename:line` first. -/
def errMsg (filename : String) (line : Nat) (tail : String) : String :=
  "スクリプトエラー:" ++ filename ++ ":" ++ toString line ++ tail

/-- Syntax error of the `default` state. -/
def syntaxErrMsg (filename : String) (line : Nat) : String :=
  errMsg filename line " 構文が解釈できませんでした "

/-- Unsupported-command error of the `function` state. -/
def unsupErrMsg (filename : String) (line : Nat) (name : String) : String :=
  errMsg filename line (" 対応していないコマンドが指定されました(" ++ name ++ ") ")

/-- Malformed-argument error of the `argument` state. -/
def argErrMsg (filename : String) (line : Nat) : String :=
  errMsg filename line " 引数の指定が想定外のフォーマットです"

/-- One fueled dispatch loop of `Parser.parse`.  `none` means the fuel
ran out before the source would have returned or thrown. -/
def parseLoop (tbl : String → Option (List Arg → Cmd)) (s : List Char) (filename : String) :
    Nat → ParserSt → Option (Except String (List Cmd))
  | 0, _ => none
  | fuel+1, st =>
    if st.state = PState.comment then
      -- `while (script[p++] !== "\n") ; line++; state = stateStack.pop();`
      -- one consumed character per step, not stopped by the outer guard
      if s.get? st.p = some '\n' then
        let (next, rest) := popState st.stack
        parseLoop tbl s filename fuel
          { st with p := st.p + 1, line := st.line + 1, state := next, stack := rest }
      else
        parseLoop tbl s filename fuel { st with p := st.p + 1 }
    else if st.p < s.length then
      match st.state with
      | PState.comment => parseLoop tbl s filename fuel st
      | PState.undef => parseLoop tbl s filename fuel st
      | PState.default =>
        match s.get? st.p with
        | none => some (Except.error (syntaxErrMsg filename st.line))
        | some c =>
          if isSepChar c then
            parseLoop tbl s filename fuel
              { st with stack := PState.default :: st.stack, state := PState.whitespace }
          else if startsComment s st.p then
            parseLoop tbl s filename fuel
              { st with stack := PState.default :: st.stack, state := PState.comment }
          else if isAlphaChar c then
            parseLoop tbl s filename fuel
              { st with stack := PState.default :: st.stack, state := PState.funct }
          else some (Except.error (syntaxErrMsg filename st.line))
      | PState.whitespace =>
        let (p1, line1) := skipWs s st.p st.line
        let (next, rest) := popState st.stack
        parseLoop tbl s filename fuel { st with p := p1, line := line1, state := next, stack := rest }
      | PState.funct =>
        let (p1, line1) := skipWs s st.p st.line
        if s.get? p1 = some ')' then
          match tbl st.curName with
          | none => some (Except.error (unsupErrMsg filename line1 st.curName))
          | some f =>
            let (next, rest) := popState st.stack
            parseLoop tbl s filename fuel
              { st with p := p1 + 1, line := line1, cmds := st.cmds ++ [f st.curArgs],
                        state := next, stack := rest }
        else
          let idx := jsIndexOfFrom s '(' p1
          let token := jsTrim (jsSubstr s p1 (idxInt idx - (p1 : Int)))
          parseLoop tbl s filename fuel
            { st with p := nextAfter idx, line := line1, curName := token, curArgs := [],
                      stack := PState.funct :: st.stack, state := PState.argument }
      | PState.argument =>
        let (p1, line1) := skipWs s st.p st.line
        if s.get? p1 = some ')' then
          let (next, rest) := popState st.stack
          parseLoop tbl s filename fuel { st with p := p1, line := line1, state := next, stack := rest }
        else if s.get? p1 = some '"' then
          parseLoop tbl s filename fuel
            { st with p := p1, line := line1, stack := PState.argument :: st.stack,
                      state := PState.argString }
        else if (s.get? p1).any isNumChar then
          parseLoop tbl s filename fuel
            { st with p := p1, line := line1, stack := PState.argument :: st.stack,
                      state := PState.argNumber }
        else some (Except.error (argErrMsg filename line1))
      | PState.argString =>
        let p1 := st.p + 1
        let idx := jsIndexOfFrom s '"' p1
        let token := jsSubstr s p1 (idxInt idx - (p1 : Int))
        let (next, rest) := popState st.stack
        parseLoop tbl s filename fuel
          { st with p := nextAfter idx, curArgs := st.curArgs ++ [Arg.str token],
                    state := next, stack := rest }
      | PState.argNumber =>
        let e := scanNum s st.p
        let token := jsSubstr s st.p ((e : Int) - (st.p : Int))
        let (next, rest) := popState st.stack
        parseLoop tbl s filename fuel
          { st with p := e, curArgs := st.curArgs ++ [Arg.numTok token],
                    state := next, stack := rest }
    else some (Except.ok st.cmds)

/-- `Parser.parse(commandTable, script, filename)`, fueled. -/
def parse (tbl : String → Option (List Arg → Cmd)) (script filename : String) (fuel : Nat) :
    Option (Except String (List Cmd)) :=
  parseLoop tbl script.toList filename fuel ⟨0, 1, PState.default, [], [], "", []⟩

/-! ### Concrete execution scenarios used by the claims -/

/-- A one-command script holding a single user `OneShotCommand`, after
one engine tick. -/
def c1one : EngineSt := engineRun (register [Cmd.oneShot false Effect.nop] "default" initEngine)

/-- A one-command script holding a user `ContinuousCommand` whose
`update` signals `stopCommand` on its first call, after one engine
tick. -/
def c1cont : EngineSt :=
  engineRun (register [Cmd.continuous false Effect.nop Effect.stopSelf Effect.nop] "default" initEngine)

/-- The `[OneShot, Halt]` program of the spec's test property, fully
registered but not yet ticked. -/
def c2reg : EngineSt := register [Cmd.oneShot false Effect.nop, Cmd.halt] "default" initEngine

/-- One `Player.run` tick of the `[OneShot, Halt]` program (the first
`register` call creates the active player with identity 0). -/
def c2scn : EngineSt := playerRun 0 c2reg

/-- Caller script for the gosub scenario: an initial one-shot, a
breaking one-shot whose `start` performs `gosub(0, "sub")`, and a final
one-shot that must run on return. -/
def c4caller : List Cmd :=
  [Cmd.oneShot false Effect.nop, Cmd.oneShot true (Effect.gosubE 0 "sub"), Cmd.oneShot false Effect.nop]

/-- Subroutine script for the gosub scenario: a single one-shot, so its
player halts on its first tick. -/
def c4sub : List Cmd := [Cmd.oneShot false Effect.nop]

/-- Both scripts registered; the caller player (identity 0) is active. -/
def c4st1 : EngineSt := register c4sub "sub" (register c4caller "default" initEngine)

/-- Tick 1: the caller runs up to the gosub trigger; a subroutine
player (identity 1) becomes active and the caller is pushed. -/
def c4st2 : EngineSt := engineRun c4st1

/-- Tick 2: the subroutine player runs off its sequence end and halts;
the engine pops the call stack in the same tick. -/
def c4st3 : EngineSt := engineRun c4st2

/-- Tick 3: the caller player resumes. -/
def c4st4 : EngineSt := engineRun c4st3

/-- An engine whose label table holds the key `"/x"` (registering
`CommandLabel("x")` under the empty script name produces exactly that
full name) while the active player runs script `"default"`. -/
def c6st : EngineSt :=
  register [Cmd.labelC "x"] "" (register [Cmd.oneShot false Effect.nop] "default" initEngine)

/-- Scripts `"default"` and `"sub"` each with a label `L`; the active
player (created by the first `register`) runs `"default"`. -/
def c8base : EngineSt :=
  register [Cmd.labelC "L"] "sub" (register [Cmd.labelC "L"] "default" initEngine)

/-- The same engine after `gosub(0, "sub")`: the active player now runs
script `"sub"`. -/
def c8gos : EngineSt := engineGosub 0 "sub" c8base

/-- `setValue` calls applied in order (an arbitrary sequence of
intervening writes). -/
def applyOps (ops : List (String × String)) (st : EngineSt) : EngineSt :=
  ops.foldl (fun st q => setValue q.1 q.2 st) st

/-! ### Association-list and index lemmas -/

theorem lookupAssoc_setAssoc_self {κ α : Type} [DecidableEq κ] (k : κ) (v : α)
    (l : List (κ × α)) : lookupAssoc (setAssoc k v l) k = some v := by
  induction l with
  | nil => simp [setAssoc, lookupAssoc]
  | cons q rest ih =>
    obtain ⟨k', v'⟩ := q
    by_cases h : k' = k
    · subst h; simp [setAssoc, lookupAssoc]
    · simp [setAssoc, lookupAssoc, h, ih]

theorem lookupAssoc_setAssoc_ne {κ α : Type} [DecidableEq κ] {k k' : κ} (v : α)
    (l : List (κ × α)) (h : k' ≠ k) :
    lookupAssoc (setAssoc k v l) k' = lookupAssoc l k' := by
  have hsym : k ≠ k' := Ne.symm h
  induction l with
  | nil => simp [setAssoc, lookupAssoc, hsym]
  | cons q rest ih =>
    obtain ⟨k2, v2⟩ := q
    by_cases h2 : k2 = k
    · subst h2
      simp [setAssoc, lookupAssoc, hsym]
    · by_cases h3 : k2 = k'
      · subst h3; simp [setAssoc, lookupAssoc, h2]
      · simp [setAssoc, lookupAssoc, h2, h3, ih]

theorem jsStrIndexOfAux_ge (l : List Char) (c : Char) :
    ∀ i : Nat, c ∈ l → (i : Int) ≤ jsStrIndexOfAux l c i := by
  induction l with
  | nil => intro i h; simp at h
  | cons d t ih =>
    intro i h
    by_cases hd : d = c
    · simp [jsStrIndexOfAux, hd]
    · have hc : c ∈ t := by
        rcases List.mem_cons.mp h with h1 | h1
        · exact absurd h1.symm hd
        · exact h1
      have h2 := ih (i + 1) hc
      have h3 : ((i : Int)) ≤ ((i + 1 : Nat) : Int) := by push_cast; omega
      simp only [jsStrIndexOfAux, hd, if_false]
      exact le_trans h3 h2

theorem jsStrIndexOfAux_not_mem (l : List Char) (c : Char) (h : c ∉ l) :
    ∀ i : Nat, jsStrIndexOfAux l c i = -1 := by
  induction l with
  | nil => intro i; rfl
  | cons d t ih =>
    intro i
    have hd : d ≠ c := fun hh => h (hh ▸ List.mem_cons_self d t)
    have ht : c ∉ t := fun hh => h (List.mem_cons_of_mem d hh)
    simp [jsStrIndexOfAux, hd, ih ht]

theorem isFullname_of (name : String) (hhead : name.toList.head? ≠ some '/')
    (hmem : '/' ∈ name.toList) : isFullname name = true := by
  unfold isFullname jsStrIndexOf
  cases hl : name.toList with
  | nil => rw [hl] at hmem; simp at hmem
  | cons d t =>
    rw [hl] at hmem hhead
    have hd : d ≠ '/' := by
      intro h; exact hhead (by rw [h]; rfl)
    have hmt : '/' ∈ t := by
      rcases List.mem_cons.mp hmem with h1 | h1
      · exact absurd h1.symm hd
      · exact h1
    have h2 := jsStrIndexOfAux_ge t '/' 1 hmt
    simp only [jsStrIndexOfAux, hd, if_false, decide_eq_true_eq, Nat.zero_add]
    omega

theorem isFullname_false_of_not_mem (name : String) (h : '/' ∉ name.toList) :
    isFullname name = false := by
  unfold isFullname jsStrIndexOf
  rw [jsStrIndexOfAux_not_mem name.toList '/' h 0]
  rfl

theorem isFullname_false_of_head (name : String) (h : name.toList.head? = some '/') :
    isFullname name = false := by
  unfold isFullname jsStrIndexOf
  cases hl : name.toList with
  | nil => rfl
  | cons d t =>
    rw [hl] at h
    have hd : d = '/' := by simpa using h
    subst hd
    simp [jsStrIndexOfAux]

end Script

namespace Script

/-! ### Claim theorems: execution core (concrete scenarios) -/

/-- C1, counterexample: in the `c1one` scenario the single one-shot
command is activated (its `start` fires, and the tick advances past it
to the halt sentinel, so its finished-ness was observed in this very
tick), yet `finish(engine)` is never invoked — refuting the claim that
`finish` fires exactly once in the same tick even when the command
reports finished immediately after `start`. -/
theorem c1_finish_counterexample :
    c1one.trace.count (Ev.startE "default" 0) = 1 ∧
    engineIsHalted c1one = true ∧
    c1one.trace.count (Ev.finishE "default" 0) = 0 := by decide

/-- C2: for the unticked `[OneShot, Halt]` program, a single
`Player.run` call invokes the one-shot's `start` and leaves the
registered `CommandHalt` (sequence position 1) as the current command,
with `isHalted` true — all within that one tick. -/
theorem c2_oneshot_halt_single_tick :
    c2scn.trace.count (Ev.startE "default" 0) = 1 ∧
    (lookupAssoc c2scn.players 0).map (fun p => p.cur.cmd) = some Cmd.halt ∧
    (lookupAssoc c2scn.players 0).map (fun p => p.cur.origin) = some (some ("default", 1)) ∧
    (lookupAssoc c2scn.players 0).map (fun p => p.pc) = some 1 ∧
    playerIsHalted c2scn 0 = true := by decide

/-- C4: after `gosub(0, "sub")` suspends the caller (tick 1: caller
pushed with program counter 1, subroutine player active), the tick in
which the subroutine player reaches its halt sentinel also pops the
call stack back to the caller (tick 2), and the subsequent tick resumes
the caller at its prior program counter + 1 — its next event is
starting the command at position 2, and the triggering command at
position 1 is started exactly once over the whole run. -/
theorem c4_gosub_return :
    c4st2.activeId = some 1 ∧ c4st2.callStack = [0] ∧
    (lookupAssoc c4st2.players 0).map (fun p => p.pc) = some 1 ∧
    playerIsHalted c4st3 1 = true ∧
    c4st3.activeId = some 0 ∧ c4st3.callStack = [] ∧
    (lookupAssoc c4st3.players 0).map (fun p => p.pc) = some 1 ∧
    c4st4.trace = c4st3.trace ++ [Ev.startE "default" 2] ∧
    c4st4.trace.count (Ev.startE "default" 1) = 1 := by decide

/-! ### Claim theorems: labels, values, parser errors -/

/-- C6, counterexample: the label table of `c6st` holds an entry under
the exact key `"/x"`, yet `getLabel` on the name `"/x"` — whose `'/'`
occurs at the first position — does not use the name as-is: it
re-qualifies it against the active player's script name and misses,
refuting the claim that a `'/'` anywhere in the name (including the
first position) makes the name be used as-is. -/
theorem c6_separator_counterexample :
    lookupAssoc c6st.labelTable "/x" = some ⟨"", "x", 0⟩ ∧
    isFullname "/x" = false ∧
    getLabel c6st "/x" = none := by decide

/-- C6, amended: a name whose `'/'` occurs at a position after the
first character is treated as already fully qualified and looked up
as-is; a name beginning with `'/'` is not, and is re-qualified against
the active player's script name (`name.indexOf("/") > 0` in the
source). -/
theorem c6_separator_amended (st : EngineSt) (name : String) (hmem : '/' ∈ name.toList) :
    (name.toList.head? ≠ some '/' → getLabel st name = lookupAssoc st.labelTable name) ∧
    (name.toList.head? = some '/' →
      getLabel st name = (activeScriptName st).bind
        (fun sn => lookupAssoc st.labelTable (fullname sn name))) := by
  constructor
  · intro hh
    simp [getLabel, isFullname_of name hh hmem]
  · intro hh
    simp only [getLabel, isFullname_false_of_head name hh, Bool.false_eq_true, if_false]
    cases hs : activeScriptName st <;> simp

/-- C6, amended, witness at the concrete name `"a/b"` and engine
`c6st`. -/
theorem c6_separator_amended_witness :
    ('/' ∈ "a/b".toList) ∧ ("a/b".toList.head? ≠ some '/') ∧
    getLabel c6st "a/b" = lookupAssoc c6st.labelTable "a/b" :=
  ⟨by decide, by decide, (c6_separator_amended c6st "a/b" (by decide)).1 (by decide)⟩

/-- C7: a call whose leading name is missing from the factory table
fails with the unsupported-command parse error carrying the given
filename and the correct 1-based line number (here line 2, after the
leading newline) and naming the command; no command list is produced.
Fuel 6 is exactly the number of dispatch steps the source takes to
reach the throw. -/
theorem c7_unsupported_command (filename : String) (tbl : String → Option (List Arg → Cmd))
    (h : tbl "Zzz" = none) :
    parse tbl "\nZzz()" filename 6 = some (Except.error (unsupErrMsg filename 2 "Zzz")) := by
  have key : parse tbl "\nZzz()" filename 6 =
      (match tbl "Zzz" with
       | none => some (Except.error (unsupErrMsg filename 2 "Zzz"))
       | some _ => none) := rfl
  rw [key, h]

/-- Factory table without any entries, for the C7 witness. -/
def c7tbl : String → Option (List Arg → Cmd) := fun _ => none

/-- C7, witness at a concrete filename and empty factory table; the
error string is spelled out in the form produced by the source. -/
theorem c7_unsupported_command_witness :
    c7tbl "Zzz" = none ∧
    parse c7tbl "\nZzz()" "boot.scr" 6 =
      some (Except.error ("スクリプトエラー:boot.scr:2 対応していないコマンドが指定されました(Zzz) ")) :=
  ⟨rfl, c7_unsupported_command "boot.scr" c7tbl rfl⟩

/-- C8: `getLabel` on a name without the separator qualifies it against
the currently active player's own script name (first conjunct, for
every engine state); concretely, before a gosub the label `L` resolves
in script `"default"`, after `gosub(0, "sub")` the same unqualified
name resolves in script `"sub"`, and an unknown name yields an absent
result rather than an error. -/
theorem c8_unqualified_label (name : String) (h : '/' ∉ name.toList) :
    (∀ st : EngineSt, getLabel st name =
      (activeScriptName st).bind (fun sn => lookupAssoc st.labelTable (fullname sn name))) ∧
    getLabel c8base "L" = some ⟨"default", "L", 0⟩ ∧
    getLabel c8gos "L" = some ⟨"sub", "L", 0⟩ ∧
    getLabel c8gos "missing" = none := by
  refine ⟨?_, by decide, by decide, by decide⟩
  intro st
  simp only [getLabel, isFullname_false_of_not_mem name h, Bool.false_eq_true, if_false]
  cases hs : activeScriptName st <;> simp

/-- C8, witness at the concrete name `"L"` on the post-gosub engine. -/
theorem c8_unqualified_label_witness :
    ('/' ∉ "L".toList) ∧ getLabel c8gos "L" = some ⟨"sub", "L", 0⟩ :=
  ⟨by decide, (c8_unqualified_label "L" (by decide)).2.2.1⟩

/-- C10: after `setValue(k, v)`, a `getValue(k)` with only intervening
writes to other keys returns exactly `v`, and the write leaves every
other key's `getValue` unchanged. -/
theorem c10_value_store (st : EngineSt) (k v k' : String) (hne : k' ≠ k)
    (ops : List (String × String)) (hops : ∀ q ∈ ops, q.1 ≠ k) :
    getValue (applyOps ops (setValue k v st)) k = some v ∧
    getValue (setValue k v st) k' = getValue st k' := by
  constructor
  · have inv : ∀ (l : List (String × String)), (∀ q ∈ l, q.1 ≠ k) →
        ∀ s : EngineSt, getValue s k = some v → getValue (applyOps l s) k = some v := by
      intro l
      induction l with
      | nil => intro _ s h0; simpa [applyOps] using h0
      | cons q rest ih =>
        intro hq s h0
        have hstep : getValue (setValue q.1 q.2 s) k = some v := by
          have hqk : k ≠ q.1 := Ne.symm (hq q (List.mem_cons_self q rest))
          simpa [getValue, setValue, VCget, VCset,
            lookupAssoc_setAssoc_ne q.2 s.values hqk] using h0
        have := ih (fun r hr => hq r (List.mem_cons_of_mem q hr)) (setValue q.1 q.2 s) hstep
        simpa [applyOps] using this
    exact inv ops hops (setValue k v st)
      (by simp [getValue, setValue, VCget, VCset, lookupAssoc_setAssoc_self])
  · simpa [getValue, setValue, VCget, VCset] using
      lookupAssoc_setAssoc_ne v st.values hne

/-- C10, witness with keys `"hp"`, `"mp"` and one intervening write. -/
theorem c10_value_store_witness :
    (("mp" : String) ≠ "hp") ∧
    getValue (applyOps [("mp", "5")] (setValue "hp" "100" initEngine)) "hp" = some "100" ∧
    getValue (setValue "hp" "100" initEngine) "mp" = getValue initEngine "mp" :=
  ⟨by decide,
   (c10_value_store initEngine "hp" "100" "mp" (by decide) [("mp", "5")] (by decide)).1,
   (c10_value_store initEngine "hp" "100" "mp" (by decide) [("mp", "5")] (by decide)).2⟩

/-! ### Parser divergence on an unterminated comment (C3) -/

/-- No newline occurs at or after position `p`. -/
def noNl (s : List Char) (p : Nat) : Prop := ∀ i, p ≤ i → s.get? i ≠ some '\n'

/-- Once the machine is in the single-line-comment state with no
newline ahead, it consumes one position per step forever and the parse
never produces a result, whatever the fuel: the source's
`while (script[p++] !== "\n");` compares the out-of-range read
(`undefined`) against the newline and never stops. -/
theorem parseLoop_comment_spin (tbl : String → Option (List Arg → Cmd)) (s : List Char)
    (filename : String) :
    ∀ (fuel : Nat) (st : ParserSt), st.state = PState.comment → noNl s st.p →
      parseLoop tbl s filename fuel st = none := by
  intro fuel
  induction fuel with
  | zero => intro st _ _; rfl
  | succ n ih =>
    intro st hst hnl
    simp only [parseLoop]
    rw [if_pos hst, if_neg (hnl st.p le_rfl)]
    exact ih { st with p := st.p + 1 } hst
      (fun i hi => hnl i (le_trans (Nat.le_succ st.p) hi))

/-- C3: on the script `"//x"` — a single-line comment not terminated by
a newline — `Parser.parse` neither returns a command list nor fails,
for every factory table, filename, and amount of fuel: the embedded
machine never leaves the comment state. -/
theorem c3_parse_comment_divergence (tbl : String → Option (List Arg → Cmd))
    (filename : String) (fuel : Nat) :
    parse tbl "//x" filename fuel = none := by
  cases fuel with
  | zero => rfl
  | succ n =>
    have step : parse tbl "//x" filename (n + 1) =
        parseLoop tbl "//x".toList filename n
          ⟨0, 1, PState.comment, [PState.default], [], "", []⟩ := rfl
    rw [step]
    apply parseLoop_comment_spin
    · rfl
    · intro i _
      by_cases h3 : i < 3
      · interval_cases i <;> decide
      · have hlen : (3 : Nat) ≤ i := by omega
        rw [(@List.get?_eq_none Char ("//x".toList) i).mpr hlen]
        simp

/-! ### Register lemmas (C5) -/

/-- The `onRegistered` events produced for `len` commands starting at
sequence position `ix`. -/
def regEvts (name : String) : Nat → Nat → List Ev
  | _, 0 => []
  | ix, len + 1 => Ev.onRegE name ix :: regEvts name (ix + 1) len

theorem labelPassAux_sequences (name : String) (cs : List Cmd) :
    ∀ (ix : Nat) (st : EngineSt), (labelPassAux name ix cs st).sequences = st.sequences := by
  induction cs with
  | nil => intro ix st; rfl
  | cons c rest ih =>
    intro ix st
    cases c <;> simp [labelPassAux, ih]

theorem labelPassAux_trace (name : String) (cs : List Cmd) :
    ∀ (ix : Nat) (st : EngineSt), (labelPassAux name ix cs st).trace = st.trace := by
  induction cs with
  | nil => intro ix st; rfl
  | cons c rest ih =>
    intro ix st
    cases c <;> simp [labelPassAux, ih]

theorem onRegPassAux_sequences (name : String) (cs : List Cmd) :
    ∀ (ix : Nat) (st : EngineSt), (onRegPassAux name ix cs st).sequences = st.sequences := by
  induction cs with
  | nil => intro ix st; rfl
  | cons c rest ih =>
    intro ix st
    simp [onRegPassAux, emit, ih]

theorem onRegPassAux_trace (name : String) (cs : List Cmd) :
    ∀ (ix : Nat) (st : EngineSt),
      (onRegPassAux name ix cs st).trace = st.trace ++ regEvts name ix cs.length := by
  induction cs with
  | nil => intro ix st; simp [onRegPassAux, regEvts]
  | cons c rest ih =>
    intro ix st
    simp [onRegPassAux, ih, regEvts, emit]

theorem setAssoc_setAssoc {κ α : Type} [DecidableEq κ] (k : κ) (v w : α) (l : List (κ × α)) :
    setAssoc k v (setAssoc k w l) = setAssoc k v l := by
  induction l with
  | nil => simp [setAssoc]
  | cons q rest ih =>
    obtain ⟨k2, v2⟩ := q
    by_cases h : k2 = k
    · subst h; simp [setAssoc]
    · simp [setAssoc, h, ih]

theorem regEvts_count (name : String) (j : Nat) :
    ∀ (len ix : Nat),
      (regEvts name ix len).count (Ev.onRegE name j) =
        if ix ≤ j ∧ j < ix + len then 1 else 0 := by
  intro len
  induction len with
  | zero =>
    intro ix
    rw [if_neg (show ¬(ix ≤ j ∧ j < ix + 0) by omega)]
    rfl
  | succ len ih =>
    intro ix
    rw [show regEvts name ix (len + 1) = Ev.onRegE name ix :: regEvts name (ix + 1) len from rfl]
    rw [List.count_cons, ih (ix + 1)]
    by_cases hj : j = ix
    · subst hj
      have htrue : (Ev.onRegE name j == Ev.onRegE name j) = true := by simp
      rw [htrue, if_neg (show ¬(j + 1 ≤ j ∧ j < j + 1 + len) by omega),
        if_pos (show j ≤ j ∧ j < j + (len + 1) by omega)]
      simp
    · have hne : (Ev.onRegE name ix == Ev.onRegE name j) = false := by
        simp [Ne.symm hj]
      rw [hne]
      by_cases hrange : ix + 1 ≤ j ∧ j < ix + 1 + len
      · rw [if_pos hrange, if_pos (show ix ≤ j ∧ j < ix + (len + 1) by omega)]
        simp
      · rw [if_neg hrange, if_neg (show ¬(ix ≤ j ∧ j < ix + (len + 1)) by omega)]
        simp

/-- `Engine.register` appends the commands to the sequence registered
under the name and emits one `onRegistered` event per position of the
full (old + new) sequence. -/
theorem register_spec (cs : List Cmd) (name : String) (st : EngineSt) :
    (register cs name st).sequences =
      setAssoc name (((lookupAssoc st.sequences name).getD []) ++ cs) st.sequences ∧
    (register cs name st).trace =
      st.trace ++ regEvts name 0 (((lookupAssoc st.sequences name).getD []).length + cs.length) := by
  unfold register
  cases hseq : lookupAssoc st.sequences name with
  | some old =>
    cases hact : st.activeId with
    | some a =>
      simp only [hseq, hact, Option.getD_some]
      constructor
      · rw [onRegPassAux_sequences, labelPassAux_sequences]
      · rw [onRegPassAux_trace, labelPassAux_trace]
        simp
    | none =>
      simp only [hseq, hact, Option.getD_some]
      constructor
      · rw [onRegPassAux_sequences, labelPassAux_sequences]
      · rw [onRegPassAux_trace, labelPassAux_trace]
        simp
  | none =>
    have hlk : lookupAssoc (setAssoc name ([] : List Cmd) st.sequences) name = some [] :=
      lookupAssoc_setAssoc_self name [] st.sequences
    cases hact : st.activeId with
    | some a =>
      simp only [hseq, hact, hlk, Option.getD_some, Option.getD_none, List.nil_append,
        List.length_nil, Nat.zero_add]
      constructor
      · rw [onRegPassAux_sequences, labelPassAux_sequences]
        exact setAssoc_setAssoc name cs [] st.sequences
      · rw [onRegPassAux_trace, labelPassAux_trace]
    | none =>
      simp only [hseq, hact, hlk, Option.getD_some, Option.getD_none, List.nil_append,
        List.length_nil, Nat.zero_add]
      constructor
      · rw [onRegPassAux_sequences, labelPassAux_sequences]
        exact setAssoc_setAssoc name cs [] st.sequences
      · rw [onRegPassAux_trace, labelPassAux_trace]

/-- C5: registering `cs1` and then `cs2` under the same script name
appends — the resulting sequence is `cs1 ++ cs2`, so the commands of
the first call keep their positions — and every position of the first
call receives the `onRegistered` invocation again during the second
call (two events in total). -/
theorem c5_register_appends (cs1 cs2 : List Cmd) :
    lookupAssoc (register cs2 "s" (register cs1 "s" initEngine)).sequences "s" =
      some (cs1 ++ cs2) ∧
    ∀ i, i < cs1.length →
      ((register cs2 "s" (register cs1 "s" initEngine)).trace).count (Ev.onRegE "s" i) = 2 := by
  have h1 := register_spec cs1 "s" initEngine
  have h2 := register_spec cs2 "s" (register cs1 "s" initEngine)
  have hinit : lookupAssoc initEngine.sequences "s" = none := rfl
  rw [hinit] at h1
  simp only [Option.getD_none, List.nil_append, List.length_nil, Nat.zero_add] at h1
  have hseq1 : (register cs1 "s" initEngine).sequences = [("s", cs1)] := by
    rw [h1.1]; rfl
  have htr1 : (register cs1 "s" initEngine).trace = regEvts "s" 0 cs1.length := by
    rw [h1.2]; rfl
  rw [hseq1] at h2
  have hlk1 : lookupAssoc [("s", cs1)] "s" = some cs1 := by simp [lookupAssoc]
  rw [hlk1] at h2
  simp only [Option.getD_some] at h2
  constructor
  · rw [h2.1]
    simp [setAssoc, lookupAssoc]
  · intro i hi
    rw [h2.2, htr1, List.count_append, regEvts_count, regEvts_count]
    rw [if_pos (show 0 ≤ i ∧ i < 0 + cs1.length by omega),
      if_pos (show 0 ≤ i ∧ i < 0 + (cs1.length + cs2.length) by omega)]

/-- C5, witness: one one-shot command registered first, one halt
command appended second; the first position gets two `onRegistered`
invocations. -/
theorem c5_register_appends_witness :
    lookupAssoc
      (register [Cmd.halt] "s" (register [Cmd.oneShot false Effect.nop] "s" initEngine)).sequences
      "s" = some ([Cmd.oneShot false Effect.nop] ++ [Cmd.halt]) ∧
    (0 < ([Cmd.oneShot false Effect.nop] : List Cmd).length) ∧
    ((register [Cmd.halt] "s"
        (register [Cmd.oneShot false Effect.nop] "s" initEngine)).trace).count
      (Ev.onRegE "s" 0) = 2 :=
  ⟨(c5_register_appends [Cmd.oneShot false Effect.nop] [Cmd.halt]).1, by decide,
   (c5_register_appends [Cmd.oneShot false Effect.nop] [Cmd.halt]).2 0 (by decide)⟩

/-! ### Halted-engine inertness (C9) -/

/-- The events the claim forbids after a halt: `start` and `finish`
invocations on sequence commands. -/
def isSF : Ev → Bool
  | Ev.startE _ _ => true
  | Ev.finishE _ _ => true
  | _ => false

/-- The list of events `emitFor` appends. -/
def emitEvs (mk : String → Nat → Ev) (o : Option (String × Nat)) : List Ev :=
  match o with
  | some (s, i) => [mk s i]
  | none => []

theorem emitFor_eq (mk : String → Nat → Ev) (o : Option (String × Nat)) (st : EngineSt) :
    emitFor mk o st = { st with trace := st.trace ++ emitEvs mk o } := by
  cases o with
  | none => simp [emitFor, emitEvs]
  | some q => obtain ⟨s, i⟩ := q; simp [emitFor, emit, emitEvs]

theorem emitFor_players (mk : String → Nat → Ev) (o : Option (String × Nat)) (st : EngineSt) :
    (emitFor mk o st).players = st.players := by rw [emitFor_eq]

theorem emitFor_activeId (mk : String → Nat → Ev) (o : Option (String × Nat)) (st : EngineSt) :
    (emitFor mk o st).activeId = st.activeId := by rw [emitFor_eq]

theorem emitFor_callStack (mk : String → Nat → Ev) (o : Option (String × Nat)) (st : EngineSt) :
    (emitFor mk o st).callStack = st.callStack := by rw [emitFor_eq]

theorem emitFor_sequences (mk : String → Nat → Ev) (o : Option (String × Nat)) (st : EngineSt) :
    (emitFor mk o st).sequences = st.sequences := by rw [emitFor_eq]

theorem emitFor_values (mk : String → Nat → Ev) (o : Option (String × Nat)) (st : EngineSt) :
    (emitFor mk o st).values = st.values := by rw [emitFor_eq]

theorem emitFor_labelTable (mk : String → Nat → Ev) (o : Option (String × Nat)) (st : EngineSt) :
    (emitFor mk o st).labelTable = st.labelTable := by rw [emitFor_eq]

theorem emitFor_trace (mk : String → Nat → Ev) (o : Option (String × Nat)) (st : EngineSt) :
    (emitFor mk o st).trace = st.trace ++ emitEvs mk o := by rw [emitFor_eq]

theorem emitEvs_update_filter (o : Option (String × Nat)) :
    (emitEvs Ev.updateE o).filter isSF = [] := by
  cases o with
  | none => rfl
  | some q => obtain ⟨s, i⟩ := q; rfl

/-- One tick of a halted engine with an empty call stack only invokes
the no-op `update` of the halt command: the state is unchanged apart
from a possible `update` event in the trace. -/
theorem engineRun_halted_eq (st : EngineSt) (a : Nat) (p : PlayerSt)
    (ha : st.activeId = some a) (hp : lookupAssoc st.players a = some p)
    (hcmd : p.cur.cmd = Cmd.halt) (hflag : p.cur.flag = false)
    (hstack : st.callStack = []) :
    engineRun st = emitFor Ev.updateE p.cur.origin st := by
  have hfin : curIsFinished p.cur = false := by
    simp [curIsFinished, hcmd, hflag]
  have hupd : runUpdatePhase a st = emitFor Ev.updateE p.cur.origin st := by
    simp only [runUpdatePhase, hp, hfin, Bool.false_eq_true, if_false, hcmd, cmdUpdateEff,
      applyEff, emitFor_players]
  have hloop : playerRun a st = runUpdatePhase a st := by
    show runLoop a (totalSeqLen st + 1 + 1) st = runUpdatePhase a st
    simp only [runLoop, hp, hfin, Bool.false_eq_true, if_false]
  have hrun : playerRun a st = emitFor Ev.updateE p.cur.origin st := hloop.trans hupd
  simp only [engineRun, ha, hrun, emitFor_activeId, emitFor_callStack, hstack, playerIsHalted,
    emitFor_players, hp, hcmd, isHaltCmd]
  simp

/-- C9: once the active player is halted (its current command is the
halt sentinel, whose flag is clear) and the call stack is empty, every
number of further `Engine.run()` calls leaves the engine inert: the
active player, every player's state (hence the program counter), the
call stack, the sequences, the value store and the label table are
unchanged, the engine stays halted, and no `start` or `finish` of any
sequence command is ever invoked again. -/
theorem c9_halted_engine_inert (st : EngineSt) (a : Nat) (p : PlayerSt)
    (ha : st.activeId = some a) (hp : lookupAssoc st.players a = some p)
    (hcmd : p.cur.cmd = Cmd.halt) (hflag : p.cur.flag = false)
    (hstack : st.callStack = []) :
    ∀ n : Nat,
      (runN n st).activeId = some a ∧
      lookupAssoc (runN n st).players a = some p ∧
      (runN n st).callStack = [] ∧
      (runN n st).sequences = st.sequences ∧
      (runN n st).values = st.values ∧
      (runN n st).labelTable = st.labelTable ∧
      engineIsHalted (runN n st) = true ∧
      (runN n st).trace.filter isSF = st.trace.filter isSF := by
  suffices h : ∀ (n : Nat) (s : EngineSt), s.activeId = some a →
      lookupAssoc s.players a = some p → s.callStack = [] →
      (runN n s).activeId = some a ∧
      lookupAssoc (runN n s).players a = some p ∧
      (runN n s).callStack = [] ∧
      (runN n s).sequences = s.sequences ∧
      (runN n s).values = s.values ∧
      (runN n s).labelTable = s.labelTable ∧
      engineIsHalted (runN n s) = true ∧
      (runN n s).trace.filter isSF = s.trace.filter isSF by
    exact fun n => h n st ha hp hstack
  intro n
  induction n with
  | zero =>
    intro s ha' hp' hstack'
    refine ⟨ha', hp', hstack', rfl, rfl, rfl, ?_, rfl⟩
    simp [runN, engineIsHalted, ha', playerIsHalted, hp', hcmd, isHaltCmd]
  | succ n ih =>
    intro s ha' hp' hstack'
    have hstep := engineRun_halted_eq s a p ha' hp' hcmd hflag hstack'
    have hrw : runN (n + 1) s = runN n (emitFor Ev.updateE p.cur.origin s) := by
      rw [show runN (n + 1) s = runN n (engineRun s) from rfl, hstep]
    have ih' := ih (emitFor Ev.updateE p.cur.origin s)
      (by rw [emitFor_activeId]; exact ha')
      (by rw [emitFor_players]; exact hp')
      (by rw [emitFor_callStack]; exact hstack')
    rw [hrw]
    refine ⟨ih'.1, ih'.2.1, ih'.2.2.1, ?_, ?_, ?_, ih'.2.2.2.2.2.2.1, ?_⟩
    · rw [ih'.2.2.2.1, emitFor_sequences]
    · rw [ih'.2.2.2.2.1, emitFor_values]
    · rw [ih'.2.2.2.2.2.1, emitFor_labelTable]
    · rw [ih'.2.2.2.2.2.2.2, emitFor_trace, List.filter_append, emitEvs_update_filter,
        List.append_nil]

/-- A freshly halted one-command engine for the C9 witness. -/
def c9scn : EngineSt := engineRun (register [Cmd.oneShot false Effect.nop] "demo" initEngine)

/-- C9, witness: the halted scenario engine stays halted with an empty
call stack after five further ticks. -/
theorem c9_halted_engine_inert_witness :
    c9scn.activeId = some 0 ∧ c9scn.callStack = [] ∧
    engineIsHalted (runN 5 c9scn) = true ∧
    (runN 5 c9scn).callStack = [] :=
  ⟨by decide, by decide,
   (c9_halted_engine_inert c9scn 0 ⟨"demo", 1, ⟨Cmd.halt, false, none⟩⟩ (by decide) (by decide)
     (by decide) (by decide) (by decide) 5).2.2.2.2.2.2.1,
   (c9_halted_engine_inert c9scn 0 ⟨"demo", 1, ⟨Cmd.halt, false, none⟩⟩ (by decide) (by decide)
     (by decide) (by decide) (by decide) 5).2.2.1⟩

/-! ### Finish-invocation structure of a tick (C1)

Every event a single `Player.run` tick appends to the trace is a
`start`, except that the tick may end with one `update` and, at most
once, a `finish` of the very command that was just updated: the
advancing loop never invokes `finish`, and the update phase invokes it
only on the command its own `update` call just made finished.  This is
the general shape behind the amended C1. -/

/-- Every event of the list is a `start` invocation. -/
def startsOnly (evs : List Ev) : Prop := ∀ e ∈ evs, ∃ s i, e = Ev.startE s i

/-- The events one tick can append: only starts, or starts followed by
one `update` of some sequence command and then at most one `finish` of
that same command as the final event. -/
def loopShape (evs : List Ev) : Prop :=
  startsOnly evs ∨ ∃ pre s i, startsOnly pre ∧
    (evs = pre ++ [Ev.updateE s i] ∨ evs = pre ++ [Ev.updateE s i, Ev.finishE s i])

theorem startsOnly_nil : startsOnly [] := fun e he => absurd he (List.not_mem_nil e)

theorem startsOnly_single (s : String) (i : Nat) : startsOnly [Ev.startE s i] := by
  intro e he
  have he' : e = Ev.startE s i := List.mem_singleton.mp he
  exact ⟨s, i, he'⟩

theorem startsOnly_append {a b : List Ev} (ha : startsOnly a) (hb : startsOnly b) :
    startsOnly (a ++ b) := by
  intro e he
  rcases List.mem_append.mp he with h | h
  · exact ha e h
  · exact hb e h

theorem loopShape_of_updShape {evs : List Ev}
    (h : evs = [] ∨ ∃ s i, evs = [Ev.updateE s i] ∨ evs = [Ev.updateE s i, Ev.finishE s i]) :
    loopShape evs := by
  rcases h with rfl | ⟨s, i, h⟩
  · exact Or.inl startsOnly_nil
  · exact Or.inr ⟨[], s, i, startsOnly_nil, by simpa using h⟩

theorem loopShape_append {a evs : List Ev} (ha : startsOnly a) (h : loopShape evs) :
    loopShape (a ++ evs) := by
  rcases h with h | ⟨pre, s, i, hpre, h⟩
  · exact Or.inl (startsOnly_append ha h)
  · refine Or.inr ⟨a ++ pre, s, i, startsOnly_append ha hpre, ?_⟩
    rcases h with h | h
    · exact Or.inl (by rw [h, List.append_assoc])
    · exact Or.inr (by rw [h, List.append_assoc])

/-- No engine call a command can make appends to the event trace:
events are produced by the player machinery alone. -/
theorem applyEff_trace (me : Nat) (e : Effect) (st : EngineSt) :
    (applyEff me e st).trace = st.trace := by
  cases e with
  | nop => rfl
  | setValueE k v => rfl
  | gotoE idx name =>
    simp only [applyEff, engineGoto]
    cases ha : st.activeId with
    | none => rfl
    | some a =>
      cases hq : lookupAssoc st.players a with
      | none => simp [hq]
      | some q => simp [hq, setPlayer]
  | gosubE idx name =>
    simp only [applyEff, engineGosub]
    cases ha : st.activeId with
    | none => rfl
    | some a => rfl
  | stopSelf =>
    simp only [applyEff]
    cases hq : lookupAssoc st.players me with
    | none => rfl
    | some q => simp [setPlayer]

/-- No engine call a command can make changes which sequence position
the calling player's current command came from: it is preserved, or
reset to an internal sentinel (`goto` installs a fresh `CommandReady`,
`gosub` a fresh player). -/
theorem applyEff_origin (me : Nat) (e : Effect) (st : EngineSt) (p p2 : PlayerSt)
    (hp : lookupAssoc st.players me = some p)
    (hp2 : lookupAssoc (applyEff me e st).players me = some p2) :
    p2.cur.origin = p.cur.origin ∨ p2.cur.origin = none := by
  cases e with
  | nop =>
    rw [show applyEff me Effect.nop st = st from rfl, hp] at hp2
    injection hp2 with h
    left; rw [h]
  | setValueE k v =>
    rw [show (applyEff me (Effect.setValueE k v) st).players = st.players from rfl, hp] at hp2
    injection hp2 with h
    left; rw [h]
  | gotoE idx name =>
    cases ha : st.activeId with
    | none =>
      rw [show applyEff me (Effect.gotoE idx name) st = engineGoto idx name st from rfl] at hp2
      simp only [engineGoto, ha] at hp2
      rw [hp] at hp2
      injection hp2 with h
      left; rw [h]
    | some a =>
      cases hq : lookupAssoc st.players a with
      | none =>
        rw [show applyEff me (Effect.gotoE idx name) st = engineGoto idx name st from rfl] at hp2
        simp only [engineGoto, ha, hq] at hp2
        rw [hp] at hp2
        injection hp2 with h
        left; rw [h]
      | some q =>
        have heq : applyEff me (Effect.gotoE idx name) st
            = setPlayer a ⟨name, (idx : Int) - 1, readyCur⟩ st := by
          simp [applyEff, engineGoto, ha, hq]
        rw [heq] at hp2
        by_cases ham : a = me
        · subst ham
          rw [show (setPlayer a ⟨name, (idx : Int) - 1, readyCur⟩ st).players
              = setAssoc a ⟨name, (idx : Int) - 1, readyCur⟩ st.players from rfl,
            lookupAssoc_setAssoc_self] at hp2
          injection hp2 with h
          right; rw [← h]; rfl
        · have hne : me ≠ a := fun hh => ham hh.symm
          rw [show (setPlayer a ⟨name, (idx : Int) - 1, readyCur⟩ st).players
              = setAssoc a ⟨name, (idx : Int) - 1, readyCur⟩ st.players from rfl,
            lookupAssoc_setAssoc_ne _ _ hne, hp] at hp2
          injection hp2 with h
          left; rw [h]
  | gosubE idx name =>
    cases ha : st.activeId with
    | none =>
      rw [show applyEff me (Effect.gosubE idx name) st = engineGosub idx name st from rfl] at hp2
      simp only [engineGosub, ha] at hp2
      rw [hp] at hp2
      injection hp2 with h
      left; rw [h]
    | some a =>
      have heq : (applyEff me (Effect.gosubE idx name) st).players
          = setAssoc st.nextId ⟨name, (idx : Int) - 1, readyCur⟩ st.players := by
        simp [applyEff, engineGosub, ha]
      rw [heq] at hp2
      by_cases hnm : st.nextId = me
      · rw [hnm, lookupAssoc_setAssoc_self] at hp2
        injection hp2 with h
        right; rw [← h]; rfl
      · have hne : me ≠ st.nextId := fun hh => hnm hh.symm
        rw [lookupAssoc_setAssoc_ne _ _ hne, hp] at hp2
        injection hp2 with h
        left; rw [h]
  | stopSelf =>
    have heq : applyEff me Effect.stopSelf st
        = setPlayer me { p with cur := { p.cur with flag := true } } st := by
      simp [applyEff, hp]
    rw [heq, show (setPlayer me { p with cur := { p.cur with flag := true } } st).players
        = setAssoc me { p with cur := { p.cur with flag := true } } st.players from rfl,
      lookupAssoc_setAssoc_self] at hp2
    injection hp2 with h
    left; rw [← h]

/-- The update phase appends no event, or one `update` of the current
sequence command, or that `update` immediately followed by one `finish`
of the same command — a `finish` is possible only right after the
`update` that detected finished-ness, within the same tick. -/
theorem runUpdatePhase_trace (me : Nat) (st : EngineSt) :
    ∃ evs : List Ev, (runUpdatePhase me st).trace = st.trace ++ evs ∧
      (evs = [] ∨ ∃ s i, evs = [Ev.updateE s i] ∨ evs = [Ev.updateE s i, Ev.finishE s i]) := by
  cases hp : lookupAssoc st.players me with
  | none =>
    refine ⟨[], ?_, Or.inl rfl⟩
    simp [runUpdatePhase, hp]
  | some p =>
    cases hfin : curIsFinished p.cur with
    | true =>
      refine ⟨[], ?_, Or.inl rfl⟩
      simp [runUpdatePhase, hp, hfin]
    | false =>
      have htr2 : (applyEff me (cmdUpdateEff p.cur.cmd)
          (emitFor Ev.updateE p.cur.origin st)).trace
          = st.trace ++ emitEvs Ev.updateE p.cur.origin := by
        rw [applyEff_trace, emitFor_trace]
      cases hp2 : lookupAssoc (applyEff me (cmdUpdateEff p.cur.cmd)
          (emitFor Ev.updateE p.cur.origin st)).players me with
      | none =>
        have hres : runUpdatePhase me st
            = applyEff me (cmdUpdateEff p.cur.cmd) (emitFor Ev.updateE p.cur.origin st) := by
          simp only [runUpdatePhase, hp, hfin, Bool.false_eq_true, if_false, hp2]
        refine ⟨emitEvs Ev.updateE p.cur.origin, by rw [hres, htr2], ?_⟩
        cases horig : p.cur.origin with
        | none => exact Or.inl (by simp [horig, emitEvs])
        | some q =>
          obtain ⟨s, i⟩ := q
          exact Or.inr ⟨s, i, Or.inl (by simp [horig, emitEvs])⟩
      | some p2 =>
        have horel : p2.cur.origin = p.cur.origin ∨ p2.cur.origin = none := by
          refine applyEff_origin me (cmdUpdateEff p.cur.cmd)
            (emitFor Ev.updateE p.cur.origin st) p p2 ?_ hp2
          rw [emitFor_players]; exact hp
        cases hfin2 : curIsFinished p2.cur with
        | false =>
          have hres : runUpdatePhase me st
              = applyEff me (cmdUpdateEff p.cur.cmd) (emitFor Ev.updateE p.cur.origin st) := by
            simp only [runUpdatePhase, hp, hfin, Bool.false_eq_true, if_false, hp2, hfin2]
          refine ⟨emitEvs Ev.updateE p.cur.origin, by rw [hres, htr2], ?_⟩
          cases horig : p.cur.origin with
          | none => exact Or.inl (by simp [horig, emitEvs])
          | some q =>
            obtain ⟨s, i⟩ := q
            exact Or.inr ⟨s, i, Or.inl (by simp [horig, emitEvs])⟩
        | true =>
          have hres : runUpdatePhase me st
              = applyEff me (cmdFinishEff p2.cur.cmd) (emitFor Ev.finishE p2.cur.origin
                  (applyEff me (cmdUpdateEff p.cur.cmd) (emitFor Ev.updateE p.cur.origin st))) := by
            simp only [runUpdatePhase, hp, hfin, Bool.false_eq_true, if_false, hp2, hfin2,
              if_true]
          have htr : (runUpdatePhase me st).trace
              = st.trace ++ (emitEvs Ev.updateE p.cur.origin
                  ++ emitEvs Ev.finishE p2.cur.origin) := by
            rw [hres, applyEff_trace, emitFor_trace, htr2, List.append_assoc]
          refine ⟨emitEvs Ev.updateE p.cur.origin ++ emitEvs Ev.finishE p2.cur.origin, htr, ?_⟩
          rcases horel with h | h
          · cases horig : p.cur.origin with
            | none => exact Or.inl (by simp [h, horig, emitEvs])
            | some q =>
              obtain ⟨s, i⟩ := q
              exact Or.inr ⟨s, i, Or.inr (by simp [h, horig, emitEvs])⟩
          · cases horig : p.cur.origin with
            | none => exact Or.inl (by simp [h, horig, emitEvs])
            | some q =>
              obtain ⟨s, i⟩ := q
              exact Or.inr ⟨s, i, Or.inl (by simp [h, horig, emitEvs])⟩

/-- One iteration of the advancing loop, with the fetch-init-start
step named (`startStep me p c st` is the state after fetching `c` at
position `p.pc + 1`, writing it into the player, recording the `start`
event and applying the command's `start` body). -/
def startStep (me : Nat) (p : PlayerSt) (c : Cmd) (st : EngineSt) : EngineSt :=
  let cur0 : CurCmd := ⟨c, false, some (p.scriptName, (p.pc + 1).toNat)⟩
  applyEff me (cmdStartEff c)
    (emit (Ev.startE p.scriptName (p.pc + 1).toNat)
      (setPlayer me { p with pc := p.pc + 1, cur := cur0 } st))

theorem startStep_trace (me : Nat) (p : PlayerSt) (c : Cmd) (st : EngineSt) :
    (startStep me p c st).trace = st.trace ++ [Ev.startE p.scriptName (p.pc + 1).toNat] := by
  simp only [startStep]
  rw [applyEff_trace]
  rfl

/-- The successor-fuel equation of the advancing loop, with the
fetch-init-start step folded into `startStep`. -/
theorem runLoop_succ (me n : Nat) (st : EngineSt) :
    runLoop me (n + 1) st =
      (match lookupAssoc st.players me with
       | none => st
       | some p =>
         if curIsFinished p.cur then
           match lookupAssoc st.sequences p.scriptName with
           | none => st
           | some prog =>
             if (prog.length : Int) ≤ p.pc + 1 then
               setPlayer me { p with pc := p.pc + 1, cur := haltCur } st
             else
               match prog.get? (p.pc + 1).toNat with
               | none => st
               | some c =>
                 match lookupAssoc (startStep me p c st).players me with
                 | none => startStep me p c st
                 | some p3 =>
                   if cmdIsBreak p3.cur.cmd then runUpdatePhase me (startStep me p c st)
                   else runLoop me n (startStep me p c st)
         else runUpdatePhase me st) := rfl

/-- The advancing loop appends only `start` events of the commands it
fetches before it returns or hands over to the update phase: the events
of a whole tick always have `loopShape`, so the loop itself never
invokes `finish` on a command it advances past. -/
theorem runLoop_trace (me : Nat) :
    ∀ (fuel : Nat) (st : EngineSt), ∃ evs : List Ev,
      (runLoop me fuel st).trace = st.trace ++ evs ∧ loopShape evs := by
  intro fuel
  induction fuel with
  | zero =>
    intro st
    exact ⟨[], by simp [runLoop], Or.inl startsOnly_nil⟩
  | succ n ih =>
    intro st
    rw [runLoop_succ me n st]
    cases hp : lookupAssoc st.players me with
    | none =>
      exact ⟨[], by simp [hp], Or.inl startsOnly_nil⟩
    | some p =>
      simp only [hp]
      cases hfin : curIsFinished p.cur with
      | false =>
        rw [if_neg Bool.false_ne_true]
        obtain ⟨evs, htr, hsh⟩ := runUpdatePhase_trace me st
        exact ⟨evs, htr, loopShape_of_updShape hsh⟩
      | true =>
        rw [if_pos rfl]
        cases hseq : lookupAssoc st.sequences p.scriptName with
        | none =>
          simp only [hseq]
          exact ⟨[], by simp, Or.inl startsOnly_nil⟩
        | some prog =>
          simp only [hseq]
          by_cases hlen : (prog.length : Int) ≤ p.pc + 1
          · rw [if_pos hlen]
            exact ⟨[], by simp [setPlayer], Or.inl startsOnly_nil⟩
          · rw [if_neg hlen]
            cases hget : prog.get? (p.pc + 1).toNat with
            | none =>
              simp only [hget]
              exact ⟨[], by simp, Or.inl startsOnly_nil⟩
            | some c =>
              simp only [hget]
              cases hp3 : lookupAssoc (startStep me p c st).players me with
              | none =>
                simp only [hp3]
                exact ⟨[Ev.startE p.scriptName (p.pc + 1).toNat],
                  by rw [startStep_trace], Or.inl (startsOnly_single _ _)⟩
              | some p3 =>
                simp only [hp3]
                cases hbrk : cmdIsBreak p3.cur.cmd with
                | true =>
                  rw [if_pos rfl]
                  obtain ⟨evs3, htr3, hsh3⟩ := runUpdatePhase_trace me (startStep me p c st)
                  refine ⟨[Ev.startE p.scriptName (p.pc + 1).toNat] ++ evs3, ?_, ?_⟩
                  · rw [htr3, startStep_trace, List.append_assoc]
                  · exact loopShape_append (startsOnly_single _ _) (loopShape_of_updShape hsh3)
                | false =>
                  rw [if_neg Bool.false_ne_true]
                  obtain ⟨evs2, htr2, hsh2⟩ := ih (startStep me p c st)
                  refine ⟨[Ev.startE p.scriptName (p.pc + 1).toNat] ++ evs2, ?_, ?_⟩
                  · rw [htr2, startStep_trace, List.append_assoc]
                  · exact loopShape_append (startsOnly_single _ _) hsh2

/-- The events one whole `Player.run` tick appends always have
`loopShape`. -/
theorem playerRun_trace (st : EngineSt) (me : Nat) :
    ∃ evs : List Ev, (playerRun me st).trace = st.trace ++ evs ∧ loopShape evs :=
  runLoop_trace me (totalSeqLen st + 2) st

/-- C1, amended: in every tick of every player over every engine state,
`finish(engine)` fires on a sequence command only as the tick's final
event, immediately after that same command's `update(engine)` call, and
at most once per tick — the events a tick appends are `start`s,
optionally followed by one `update` of some command and then at most
one `finish` of that very command (`loopShape`).  So finished-ness that
is already reported when the advancing loop inspects a command — in
particular right after its `start(engine)` call — never triggers
`finish`, while finished-ness first produced by an `update` call
triggers `finish` exactly once, within that same tick: concretely, the
continuous command of `c1cont` stopping inside `update` receives
`start`, `update`, `finish` in one tick and exactly one `finish` ever,
and the immediately-finished one-shot of `c1one` never receives
`finish`. -/
theorem c1_finish_amended :
    (∀ (st : EngineSt) (me : Nat), ∃ evs : List Ev,
        (playerRun me st).trace = st.trace ++ evs ∧ loopShape evs) ∧
    c1cont.trace = [Ev.onRegE "default" 0, Ev.startE "default" 0,
                    Ev.updateE "default" 0, Ev.finishE "default" 0] ∧
    (runN 3 c1cont).trace.count (Ev.finishE "default" 0) = 1 ∧
    (runN 3 c1one).trace.count (Ev.finishE "default" 0) = 0 :=
  ⟨playerRun_trace, by decide, by decide, by decide⟩

end Script
